import Mathlib

/-!
Shallow embedding of the Image-Enhancer pipeline (src/src/main.cpp).

The program is a single driver: detect the largest face rectangle, expand it,
optionally super-resolve the crop (with a bicubic fallback on model failure),
sharpen (unsharp mask), CLAHE, denoise, resize back, and paste the result into
a clone of the input image through a feathered alpha mask.

Pixels are modelled exactly: 8-bit channels as natural numbers, all float
arithmetic of the program carried out over `ℚ` (exact arithmetic; the program
computes in `float`/`double`, whose rounding does not affect any property
proved here — the decisive computations are exactly representable).
`cvRound` models OpenCV's `cvRound`/`saturate_cast<int>` rounding, which
rounds half to even.

External OpenCV routines that the driver merely calls (bicubic sampling,
`GaussianBlur`, CLAHE, `fastNlMeansDenoisingColored`, the DNN super-resolution
model, `getGaussianKernel`) are opaque collaborators: they are passed in as
function parameters bundled in `ExtOps`, exactly at the granularity at which
`main.cpp` invokes them.  The routines whose *behaviour* the repository's code
depends on (`sepFilter2D` on the feather mask, `cv::normalize` MINMAX, the
resize output-dimension rule) are embedded faithfully below.
-/

/-- A BGR pixel: three 8-bit channel samples (values intended in 0..255). -/
abbrev Pix3 : Type := ℕ × ℕ × ℕ

/-- `cv::Rect`: integer origin and extent. -/
structure Rect where
  x : ℤ
  y : ℤ
  w : ℤ
  h : ℤ
deriving DecidableEq, Repr

/-- `cv::Rect::area()`: width times height. -/
def Rect.area (r : Rect) : ℤ := r.w * r.h

/-- A dense image: integer dimensions plus a total pixel function.
(`Img ℚ` models a single-channel CV_32F matrix, `Img Pix3` a CV_8UC3 one.) -/
structure Img (α : Type) where
  w : ℤ
  h : ℤ
  pix : ℤ → ℤ → α

/-- The CV_32F image `cv::Mat(size, CV_32F, Scalar(1.0))`: a uniform field. -/
def constImg (w h : ℤ) (c : ℚ) : Img ℚ := ⟨w, h, fun _ _ => c⟩

/-- OpenCV `cvRound` (as used by `saturate_cast<int>`): round half to even. -/
def cvRound (q : ℚ) : ℤ :=
  if q - ⌊q⌋ < 1/2 then ⌊q⌋
  else if 1/2 < q - ⌊q⌋ then ⌊q⌋ + 1
  else if ⌊q⌋ % 2 = 0 then ⌊q⌋ else ⌊q⌋ + 1

/-- Saturation of an integer to the 8-bit range, as in `saturate_cast<uchar>`. -/
def clamp255 (z : ℤ) : ℤ := max 0 (min 255 z)

/-- `std::round`: round half away from zero. -/
def stdRound (q : ℚ) : ℤ := if 0 ≤ q then ⌊q + 1/2⌋ else -⌊-q + 1/2⌋

/-- `BORDER_REFLECT_101` index reflection (`gfedcb|abcdefgh|gfedcba`),
for offsets smaller than the image extent, as produced by
`cv::borderInterpolate`. -/
def reflect101 (n p : ℤ) : ℤ :=
  if p < 0 then -p else if n ≤ p then 2 * (n - 1) - p else p

/-- One-dimensional correlation of the line `f` (of extent `n`) with the
kernel `k` anchored at its centre, sampling out-of-range positions through
`reflect101` — one pass of `cv::sepFilter2D`. -/
def conv1 (k : List ℚ) (n : ℤ) (f : ℤ → ℚ) (x : ℤ) : ℚ :=
  (k.enum.map (fun p => p.2 * f (reflect101 n (x + p.1 - (k.length - 1) / 2)))).sum

/-- `cv::sepFilter2D(src, dst, -1, kernel, kernel)` with the default
`BORDER_REFLECT_101`: the row pass followed by the column pass. -/
def sepFilter2D (k : List ℚ) (img : Img ℚ) : Img ℚ :=
  let rowPass : Img ℚ := ⟨img.w, img.h, fun x y => conv1 k img.w (fun t => img.pix t y) x⟩
  ⟨img.w, img.h, fun x y => conv1 k img.h (fun t => rowPass.pix x t) y⟩

/-- The row-major list of the pixels inside an image's bounds. -/
def pixList (img : Img ℚ) : List ℚ :=
  (List.range img.h.toNat).flatMap fun y =>
    (List.range img.w.toNat).map fun x => img.pix x y

/-- Minimum of a list of samples (`cv::minMaxIdx` lower output; 0 on an
empty matrix). -/
def listMin : List ℚ → ℚ
  | [] => 0
  | a :: l => l.foldl min a

/-- Maximum of a list of samples (`cv::minMaxIdx` upper output; 0 on an
empty matrix). -/
def listMax : List ℚ → ℚ
  | [] => 0
  | a :: l => l.foldl max a

/-- `cv::normalize(src, dst, a, b, NORM_MINMAX)`: affine map sending the
source minimum to `min a b` and the source maximum to `max a b`.  When the
source is constant (`smax - smin` not above zero — OpenCV guards with
`DBL_EPSILON`; in exact arithmetic the difference is then exactly 0) the
scale is 0, so every output sample is `min a b - smin * 0 = min a b`. -/
def normalizeMinMax (a b : ℚ) (img : Img ℚ) : Img ℚ :=
  let smin := listMin (pixList img)
  let smax := listMax (pixList img)
  let scale := if 0 < smax - smin then (max a b - min a b) / (smax - smin) else 0
  let shift := min a b - smin * scale
  ⟨img.w, img.h, fun x y => img.pix x y * scale + shift⟩

/-- `featherMask` (main.cpp:101-109): start from a uniform CV_32F field of
1.0 sized to the target Rect, convolve separably with the 1-D Gaussian
kernel `getGaussianKernel(r*2+1, r)` (where `r = max(1, radius)`), then
MINMAX-normalize to `[0, 1]`.  The kernel returned by the external
`getGaussianKernel` call is supplied as the parameter `gk`. -/
def featherMask (gk : ℤ → List ℚ) (w h radius : ℤ) : Img ℚ :=
  let r := max 1 radius
  normalizeMinMax 0 1 (sepFilter2D (gk r) (constImg w h 1))

/-- One channel of the feathered blend (main.cpp:119-124): both samples are
brought to normalized `[0,1]` float space, blended as
`src*m + dst*(1-m)`, scaled back by 255 and saturated to 8 bits. -/
def blendC (s d : ℕ) (m : ℚ) : ℕ :=
  (clamp255 (cvRound (((s : ℚ) / 255 * m + (d : ℚ) / 255 * (1 - m)) * 255))).toNat

/-- Per-pixel feathered blend: the single-channel mask value is broadcast
across the three channels (`cv::merge` of three mask copies). -/
def blendPix (s d : Pix3) (m : ℚ) : Pix3 :=
  (blendC s.1 d.1 m, blendC s.2.1 d.2.1 m, blendC s.2.2 d.2.2 m)

/-- The predicate "(x, y) lies inside Rect r". -/
def insideRect (r : Rect) (x y : ℤ) : Prop :=
  r.x ≤ x ∧ x < r.x + r.w ∧ r.y ≤ y ∧ y < r.y + r.h

instance (r : Rect) (x y : ℤ) : Decidable (insideRect r x y) :=
  inferInstanceAs (Decidable (_ ∧ _ ∧ _ ∧ _))

/-- The external collaborators of the driver, at the granularity at which
`main.cpp` calls into OpenCV:
`sample` is the bicubic resampler behind `cv::resize(src, dst, Size(W,H), INTER_CUBIC)`
(queried per destination pixel), `blur` is `cv::GaussianBlur` at a given odd
kernel size, `clahe` is the CLAHE luma-equalization round trip
(main.cpp:79-90), `denoise` is `cv::fastNlMeansDenoisingColored`, `srInvoke`
is the DNN super-resolution upsample of a region at an integer scale — the
loaded model file and the name-sniffed algorithm choice (main.cpp:170-176)
are folded into this handle, and `Except.error` models a thrown
`std::exception` — and `gk` is `getGaussianKernel(r*2+1, r)`. -/
structure ExtOps where
  sample : Img Pix3 → ℤ → ℤ → ℤ → ℤ → Pix3
  blur : ℕ → Img Pix3 → Img Pix3
  clahe : Img Pix3 → Img Pix3
  denoise : Img Pix3 → Img Pix3
  srInvoke : ℤ → Img Pix3 → Except String (Img Pix3)
  gk : ℤ → List ℚ

/-- `cv::resize` to an explicit destination size: the output dimensions are
the requested ones, the content comes from the bicubic sampler. -/
def resizeTo (sample : Img Pix3 → ℤ → ℤ → ℤ → ℤ → Pix3) (img : Img Pix3) (W H : ℤ) : Img Pix3 :=
  ⟨W, H, fun x y => sample img W H x y⟩

/-- `cv::resize(src, dst, Size(), s, s, INTER_CUBIC)`: the destination size
is `saturate_cast<int>(cols*s) × saturate_cast<int>(rows*s)`. -/
def resizeScale (sample : Img Pix3 → ℤ → ℤ → ℤ → ℤ → Pix3) (img : Img Pix3) (s : ℚ) : Img Pix3 :=
  resizeTo sample img (cvRound ((img.w : ℚ) * s)) (cvRound ((img.h : ℚ) * s))

/-- `pasteWithFeather` (main.cpp:111-125): resize the enhanced face to the
ROI's size, build the feather mask with radius `max(3, roi.width / 20)`,
and write the blended pixels into the ROI sub-view of the canvas; every
pixel outside the ROI keeps the canvas value. -/
def pasteWithFeather (ext : ExtOps) (face : Img Pix3) (roi : Rect) (canvas : Img Pix3) : Img Pix3 :=
  let resizedFace := resizeTo ext.sample face roi.w roi.h
  let mask := featherMask ext.gk roi.w roi.h (max 3 (roi.w / 20))
  ⟨canvas.w, canvas.h, fun x y =>
    if insideRect roi x y then
      blendPix (resizedFace.pix (x - roi.x) (y - roi.y)) (canvas.pix x y)
        (mask.pix (x - roi.x) (y - roi.y))
    else canvas.pix x y⟩

/-- `pickLargest`'s loop body (main.cpp:95-97): keep the later candidate
only when its area is strictly larger. -/
def step (best c : Rect) : Rect := if best.area < c.area then c else best

/-- `pickLargest` (main.cpp:92-99): the zero Rect on an empty candidate
list, otherwise the fold of `step` starting from the first candidate. -/
def pickLargest : List Rect → Rect
  | [] => ⟨0, 0, 0, 0⟩
  | r :: rs => rs.foldl step r

/-- ROI expansion (main.cpp:156-161): pad by `width/8` per side horizontally
and `height/6` per side vertically, clamp the origin at 0, and min-cap each
extent against the space remaining up to the image border.  (The detector
only ever yields positive extents, on which C++ truncating division and
Lean's integer division agree.) -/
def expandRect (f : Rect) (cols rows : ℤ) : Rect :=
  let padX := f.w / 8
  let padY := f.h / 6
  ⟨max 0 (f.x - padX), max 0 (f.y - padY),
   min (f.w + 2 * padX) (cols - max 0 (f.x - padX)),
   min (f.h + 2 * padY) (rows - max 0 (f.y - padY))⟩

/-- `img(roi)`: the ROI sub-view of an image. -/
def cropImg (img : Img Pix3) (r : Rect) : Img Pix3 :=
  ⟨r.w, r.h, fun x y => img.pix (r.x + x) (r.y + y)⟩

/-- The numeric/model configuration consumed by the pipeline (struct `Args`
minus the file paths handled outside the core). -/
structure Args where
  srModelPath : String
  srScale : ℚ
  sharpenAmount : ℚ

/-- Kernel-size selection of `unsharpMask` (main.cpp:72). -/
def ksizeFor (amount : ℚ) : ℕ :=
  if amount < 3/4 then 3 else if amount < 3/2 then 5 else if amount < 5/2 then 7 else 9

/-- One channel of `cv::addWeighted(src, 1+amount, blurred, -amount, 0)`:
computed in real arithmetic, rounded, saturated to 8 bits. -/
def awC (s b : ℕ) (amount : ℚ) : ℕ :=
  (clamp255 (cvRound ((s : ℚ) * (1 + amount) + (b : ℚ) * (-amount)))).toNat

/-- Per-pixel unsharp combination. -/
def awPix (s b : Pix3) (amount : ℚ) : Pix3 :=
  (awC s.1 b.1 amount, awC s.2.1 b.2.1 amount, awC s.2.2 b.2.2 amount)

/-- `unsharpMask` (main.cpp:67-77): pass the source through when the amount
is non-positive; otherwise blur with the amount-selected Gaussian kernel and
form `src*(1+amount) - blurred*amount` saturated per channel. -/
def unsharpMask (blur : ℕ → Img Pix3 → Img Pix3) (src : Img Pix3) (amount : ℚ) : Img Pix3 :=
  if amount ≤ 0 then src
  else
    let blurred := blur (ksizeFor amount) src
    ⟨src.w, src.h, fun x y => awPix (src.pix x y) (blurred.pix x y) amount⟩

/-- The super-resolution step of main (main.cpp:166-194): when a model path
is supplied and the requested scale is at least 1.5, invoke the model at the
integer scale `(int)std::round(srScale)`; a thrown failure is caught, a
diagnostic recorded, and the crop is resized bicubically at the requested
scale instead.  With no model, scales above 1.01 get a direct bicubic resize
and smaller ones pass through. -/
def srStage (ext : ExtOps) (a : Args) (face : Img Pix3) : Img Pix3 × List String :=
  if a.srModelPath ≠ "" ∧ (3/2 : ℚ) ≤ a.srScale then
    match ext.srInvoke (stdRound a.srScale) face with
    | .ok up => (up, [])
    | .error e => (resizeScale ext.sample face a.srScale,
        ["Super-resolution failed: " ++ e ++ ". Using bicubic."])
  else if (101/100 : ℚ) < a.srScale then (resizeScale ext.sample face a.srScale, [])
  else (face, [])

/-- The enhancement branch of main (main.cpp:163-210): crop the expanded
ROI, super-resolve, sharpen, CLAHE, denoise, resize back down to the ROI
size, and paste with feathering into a fresh copy of the input image. -/
def enhanceFace (ext : ExtOps) (a : Args) (img : Img Pix3) (roi : Rect) : Img Pix3 :=
  let face0 := cropImg img roi
  let face1 := (srStage ext a face0).1
  let face2 := unsharpMask ext.blur face1 a.sharpenAmount
  let face3 := ext.clahe face2
  let face4 := ext.denoise face3
  let faceBack := resizeTo ext.sample face4 roi.w roi.h
  pasteWithFeather ext faceBack roi img

/-- The pipeline of main (main.cpp:143-218), starting from the detector's
candidate list: when the largest candidate has zero area the input image is
written out unchanged; otherwise the expanded ROI is enhanced and
composited. -/
def runPipeline (ext : ExtOps) (a : Args) (faces : List Rect) (img : Img Pix3) : Img Pix3 :=
  if (pickLargest faces).area = 0 then img
  else enhanceFace ext a img (expandRect (pickLargest faces) img.w img.h)

/-- Validity of an 8-bit pixel: every channel sample fits in a byte. -/
def validPix (p : Pix3) : Prop := p.1 < 256 ∧ p.2.1 < 256 ∧ p.2.2 < 256

instance (p : Pix3) : Decidable (validPix p) :=
  inferInstanceAs (Decidable (_ ∧ _ ∧ _))

/-- A concrete instantiation of the external collaborators, used to evaluate
the pipeline on concrete inputs (nearest-pixel sampling, identity filters, a
model that always throws, a box kernel). -/
def extC : ExtOps where
  sample := fun img _ _ x y => img.pix x y
  blur := fun _ i => i
  clahe := id
  denoise := id
  srInvoke := fun _ _ => .error "malformed model"
  gk := fun r => List.replicate (2 * r + 1).toNat ((1 : ℚ) / (2 * r + 1))

/-! ### Helper lemmas: the feather mask degenerates to the zero mask -/

/-- Multiplying every element of a list by a constant scales the sum. -/
theorem sum_map_mulc (l : List ℚ) (c : ℚ) : (l.map (fun v => v * c)).sum = l.sum * c := by
  induction l with
  | nil => simp
  | cons a l ih => simp [ih, add_mul]

/-- A 1-D pass over a constant line yields the kernel sum times the constant,
independently of the position and of the border handling. -/
theorem conv1_const (k : List ℚ) (n : ℤ) (f : ℤ → ℚ) (c : ℚ) (hf : ∀ t, f t = c) (x : ℤ) :
    conv1 k n f x = k.sum * c := by
  unfold conv1
  have h1 : k.enum.map (fun p => p.2 * f (reflect101 n (x + p.1 - (k.length - 1) / 2)))
      = k.enum.map (fun p => p.2 * c) := by
    apply List.map_congr_left
    intro p _
    rw [hf]
  have h2 : k.enum.map (fun p : ℕ × ℚ => p.2 * c) = k.map (fun v => v * c) := by
    rw [show (fun p : ℕ × ℚ => p.2 * c) = (fun v => v * c) ∘ Prod.snd from rfl,
      ← List.map_map, List.enum_map_snd]
  rw [h1, h2, sum_map_mulc]

/-- Separable filtering of the uniform field is constant: every output pixel
is the squared kernel sum. -/
theorem sepFilter2D_const_pix (k : List ℚ) (w h x y : ℤ) :
    (sepFilter2D k (constImg w h 1)).pix x y = k.sum * (k.sum * 1) := by
  show conv1 k h (fun t => conv1 k w (fun s => (constImg w h 1).pix s t) x) y = _
  exact conv1_const k h _ (k.sum * 1) (fun t => conv1_const k w _ 1 (fun _ => rfl) x) y

/-- Every listed pixel of a pointwise-constant image is that constant. -/
theorem pixList_all_const (img : Img ℚ) (c : ℚ) (hp : ∀ x y, img.pix x y = c) :
    ∀ v ∈ pixList img, v = c := by
  intro v hv
  unfold pixList at hv
  simp only [List.mem_flatMap, List.mem_map, List.mem_range] at hv
  obtain ⟨y, -, x, -, rfl⟩ := hv
  exact hp _ _

/-- Folding `min` over elements all equal to the seed returns the seed. -/
theorem foldl_min_all_eq (l : List ℚ) (a : ℚ) (h : ∀ v ∈ l, v = a) : l.foldl min a = a := by
  induction l with
  | nil => rfl
  | cons b l ih =>
    rw [List.foldl_cons, h b (List.mem_cons_self b l), min_self]
    exact ih (fun v hv => h v (List.mem_cons_of_mem _ hv))

/-- Folding `max` over elements all equal to the seed returns the seed. -/
theorem foldl_max_all_eq (l : List ℚ) (a : ℚ) (h : ∀ v ∈ l, v = a) : l.foldl max a = a := by
  induction l with
  | nil => rfl
  | cons b l ih =>
    rw [List.foldl_cons, h b (List.mem_cons_self b l), max_self]
    exact ih (fun v hv => h v (List.mem_cons_of_mem _ hv))

/-- On an all-equal sample list the reported minimum and maximum coincide. -/
theorem listMin_eq_listMax (l : List ℚ) (c : ℚ) (h : ∀ v ∈ l, v = c) :
    listMin l = listMax l := by
  cases l with
  | nil => rfl
  | cons a t =>
    have ha : a = c := h a (List.mem_cons_self a t)
    subst ha
    show t.foldl min a = t.foldl max a
    rw [foldl_min_all_eq t a (fun v hv => h v (List.mem_cons_of_mem _ hv)),
      foldl_max_all_eq t a (fun v hv => h v (List.mem_cons_of_mem _ hv))]

/-- MINMAX normalization of a constant image to `[0, 1]` maps every sample
to 0: the source minimum equals the source maximum, so OpenCV's guarded
scale is 0 and the shift is `0 - smin * 0 = 0`. -/
theorem normalizeMinMax_const_pix (img : Img ℚ) (c : ℚ) (hp : ∀ x y, img.pix x y = c)
    (x y : ℤ) : (normalizeMinMax 0 1 img).pix x y = 0 := by
  have heq : listMin (pixList img) = listMax (pixList img) :=
    listMin_eq_listMax _ c (pixList_all_const img c hp)
  have h0 : ¬ (0 < listMax (pixList img) - listMin (pixList img)) := by
    rw [← heq]; simp
  unfold normalizeMinMax
  simp only [if_neg h0]
  ring_nf
  simp

/-- The feather mask built by the program is identically zero, whatever
Gaussian kernel `getGaussianKernel` returns: the uniform field convolves to
a constant, and MINMAX normalization collapses a constant to 0. -/
theorem featherMask_pix (gk : ℤ → List ℚ) (w h radius x y : ℤ) :
    (featherMask gk w h radius).pix x y = 0 := by
  unfold featherMask
  exact normalizeMinMax_const_pix _ ((gk (max 1 radius)).sum * ((gk (max 1 radius)).sum * 1))
    (fun x y => sepFilter2D_const_pix _ _ _ x y) x y

/-! ### Helper lemmas: rounding, saturation and degenerate blending -/

/-- `cvRound` is exact on integers. -/
theorem cvRound_intCast (z : ℤ) : cvRound (z : ℚ) = z := by
  unfold cvRound
  rw [Int.floor_intCast]
  norm_num

/-- `cvRound` never rounds below the floor. -/
theorem floor_le_cvRound (q : ℚ) : ⌊q⌋ ≤ cvRound q := by
  unfold cvRound
  split_ifs <;> omega

/-- Rounding a scaled nonnegative extent never shrinks it. -/
theorem le_cvRound_mul (w : ℤ) (s : ℚ) (hw : 0 ≤ w) (hs : 1 ≤ s) :
    w ≤ cvRound ((w : ℚ) * s) := by
  have h1 : (w : ℚ) ≤ (w : ℚ) * s :=
    le_mul_of_one_le_right (by exact_mod_cast hw) hs
  have h2 : ⌊(w : ℚ)⌋ ≤ ⌊(w : ℚ) * s⌋ := Int.floor_le_floor h1
  have h3 : ⌊(w : ℚ)⌋ = w := Int.floor_intCast w
  have h4 : ⌊(w : ℚ) * s⌋ ≤ cvRound ((w : ℚ) * s) := floor_le_cvRound _
  omega

/-- `std::round` of a rational at least 3/2 is at least 1. -/
theorem one_le_stdRound (s : ℚ) (hs : (3/2 : ℚ) ≤ s) : 1 ≤ stdRound s := by
  unfold stdRound
  rw [if_pos (le_trans (by norm_num) hs)]
  have : (2 : ℤ) ≤ ⌊s + 1/2⌋ := by
    rw [Int.le_floor]
    push_cast
    linarith
  omega

/-- Blending with mask value 0 hands back the destination sample. -/
theorem blendC_zero (s d : ℕ) (hd : d < 256) : blendC s d 0 = d := by
  unfold blendC
  have h1 : (((s : ℚ) / 255 * 0 + (d : ℚ) / 255 * (1 - 0)) * 255) = ((d : ℤ) : ℚ) := by
    push_cast
    field_simp
  rw [h1, cvRound_intCast]
  unfold clamp255
  omega

/-- Per-pixel blending with mask value 0 hands back the destination pixel. -/
theorem blendPix_zero (s d : Pix3) (hd : validPix d) : blendPix s d 0 = d := by
  obtain ⟨d1, d2, d3⟩ := d
  obtain ⟨h1, h2, h3⟩ := hd
  unfold blendPix
  simp only [blendC_zero _ _ h1, blendC_zero _ _ h2, blendC_zero _ _ h3]

/-- Pixels outside the ROI are returned from the canvas untouched. -/
theorem pasteWithFeather_pix_outside (ext : ExtOps) (face : Img Pix3) (roi : Rect)
    (canvas : Img Pix3) (x y : ℤ) (h : ¬ insideRect roi x y) :
    (pasteWithFeather ext face roi canvas).pix x y = canvas.pix x y := by
  unfold pasteWithFeather
  simp only [if_neg h]

/-- Because the feather mask is identically zero, even pixels inside the ROI
come back unchanged from the canvas (for in-range 8-bit samples). -/
theorem pasteWithFeather_pix_eq (ext : ExtOps) (face : Img Pix3) (roi : Rect)
    (canvas : Img Pix3) (x y : ℤ) (hv : validPix (canvas.pix x y)) :
    (pasteWithFeather ext face roi canvas).pix x y = canvas.pix x y := by
  by_cases h : insideRect roi x y
  · unfold pasteWithFeather
    simp only [if_pos h]
    rw [featherMask_pix]
    exact blendPix_zero _ _ hv
  · exact pasteWithFeather_pix_outside ext face roi canvas x y h

/-! ### Helper lemmas: the largest-area selection loop -/

/-- The loop body never decreases the running best's area. -/
theorem step_le_left (r c : Rect) : r.area ≤ (step r c).area := by
  unfold step
  split
  · exact le_of_lt (by assumption)
  · exact le_rfl

/-- The loop body's result has at least the candidate's area. -/
theorem step_le_right (r c : Rect) : c.area ≤ (step r c).area := by
  unfold step
  split
  · exact le_rfl
  · exact le_of_not_lt (by assumption)

/-- The fold of the loop body never decreases the seed's area. -/
theorem foldl_step_seed_le (rs : List Rect) : ∀ r : Rect, r.area ≤ (rs.foldl step r).area := by
  induction rs with
  | nil => intro r; exact le_rfl
  | cons c rs ih =>
    intro r
    calc r.area ≤ (step r c).area := step_le_left r c
    _ ≤ (rs.foldl step (step r c)).area := ih (step r c)

/-- Every traversed candidate's area is bounded by the fold's result. -/
theorem foldl_step_mem_le (rs : List Rect) : ∀ (r c : Rect), c ∈ rs →
    c.area ≤ (rs.foldl step r).area := by
  induction rs with
  | nil => intro r c hc; cases hc
  | cons d rs ih =>
    intro r c hc
    rcases List.mem_cons.mp hc with h | h
    · subst h
      calc c.area ≤ (step r c).area := step_le_right r c
      _ ≤ (rs.foldl step (step r c)).area := foldl_step_seed_le rs (step r c)
    · exact ih (step r d) c h

/-- The fold's result is the first candidate of maximal area: the list splits
around it, and everything strictly before it has strictly smaller area. -/
theorem foldl_step_first (rs : List Rect) : ∀ r : Rect, ∃ l₁ l₂,
    r :: rs = l₁ ++ (rs.foldl step r) :: l₂ ∧
    ∀ a ∈ l₁, a.area < (rs.foldl step r).area := by
  induction rs with
  | nil =>
    intro r
    exact ⟨[], [], rfl, by intro a ha; cases ha⟩
  | cons c rs ih =>
    intro r
    have hfold : (c :: rs).foldl step r = rs.foldl step (step r c) := rfl
    by_cases h : r.area < c.area
    · have hstep : step r c = c := if_pos h
      obtain ⟨A, B, hAB, hlt⟩ := ih c
      rw [hfold, hstep]
      refine ⟨r :: A, B, ?_, ?_⟩
      · rw [List.cons_append, ← hAB]
      · intro a ha
        rcases List.mem_cons.mp ha with h1 | h1
        · subst h1
          exact lt_of_lt_of_le h (foldl_step_seed_le rs c)
        · exact hlt a h1
    · have hstep : step r c = r := if_neg h
      obtain ⟨A, B, hAB, hlt⟩ := ih r
      rw [hfold, hstep]
      cases A with
      | nil =>
        have hr : r = rs.foldl step r := (List.cons.injEq _ _ _ _).mp hAB |>.1
        refine ⟨[], c :: B, ?_, ?_⟩
        · have hB : rs = B := (List.cons.injEq _ _ _ _).mp hAB |>.2
          rw [List.nil_append, ← hr, hB]
        · intro a ha; cases ha
      | cons a A' =>
        obtain ⟨ha, htail⟩ := (List.cons.injEq _ _ _ _).mp hAB
        subst ha
        refine ⟨r :: c :: A', B, ?_, ?_⟩
        · exact congrArg (fun t => r :: c :: t) htail
        · intro a ha
          rcases List.mem_cons.mp ha with h1 | h1
          · subst h1
            exact hlt a (List.mem_cons_self a A')
          · rcases List.mem_cons.mp h1 with h2 | h2
            · subst h2
              exact lt_of_le_of_lt (le_of_not_lt h) (hlt _ (List.mem_cons_self _ A'))
            · exact hlt a (List.mem_cons_of_mem _ h2)

/-! ### Small evaluation helpers -/

/-- `listMin` of an all-zero sample list is 0. -/
theorem listMin_of_all_zero (l : List ℚ) (h : ∀ v ∈ l, v = 0) : listMin l = 0 := by
  cases l with
  | nil => rfl
  | cons a t =>
    show t.foldl min a = 0
    rw [h a (List.mem_cons_self a t)]
    exact foldl_min_all_eq t 0 (fun v hv => h v (List.mem_cons_of_mem _ hv))

/-- `listMax` of an all-zero sample list is 0. -/
theorem listMax_of_all_zero (l : List ℚ) (h : ∀ v ∈ l, v = 0) : listMax l = 0 := by
  cases l with
  | nil => rfl
  | cons a t =>
    show t.foldl max a = 0
    rw [h a (List.mem_cons_self a t)]
    exact foldl_max_all_eq t 0 (fun v hv => h v (List.mem_cons_of_mem _ hv))

/-- The pipeline as a whole returns every valid 8-bit pixel of the input
unchanged and keeps the input dimensions, whatever the detector found: in
the no-candidate branch this is the explicit pass-through, and in the
enhancement branch the identically-zero feather mask makes the final blend
return every destination pixel of the cloned input. -/
theorem runPipeline_pix_eq (ext : ExtOps) (a : Args) (faces : List Rect) (img : Img Pix3)
    (x y : ℤ) (hv : validPix (img.pix x y)) :
    (runPipeline ext a faces img).pix x y = img.pix x y ∧
    (runPipeline ext a faces img).w = img.w ∧
    (runPipeline ext a faces img).h = img.h := by
  by_cases h0 : (pickLargest faces).area = 0
  · unfold runPipeline
    rw [if_pos h0]
    exact ⟨rfl, rfl, rfl⟩
  · unfold runPipeline
    rw [if_neg h0]
    exact ⟨pasteWithFeather_pix_eq ext _ _ img x y hv, rfl, rfl⟩

/-! ### The claims -/

/-- C1: when the detector reports zero candidate rectangles, `pickLargest`
returns the zero-area sentinel Rect and the pipeline writes the input image
out unchanged — the output is pixel-identical to (indeed, the same image
value as) the input, for every configuration and every input image. -/
theorem noCandidates_passthrough (ext : ExtOps) (a : Args) (img : Img Pix3) :
    runPipeline ext a [] img = img := by
  unfold runPipeline
  rw [if_pos (by decide)]

/-- C2: contrary to the claim, the FeatherMask the program builds is the
degenerate all-zero mask, for every target size, every radius and every
kernel `getGaussianKernel` could return: the uniform 1.0 field convolves
(with the default reflected border) to a constant field, so its minimum
equals its maximum and MINMAX normalization maps every sample to 0.  In
particular for the 124×160 mask of scenario A the normalized maximum is 0,
not 1. -/
theorem featherMask_degenerate :
    (∀ gk w h radius x y, (featherMask gk w h radius).pix x y = 0) ∧
    (∀ gk, listMin (pixList (featherMask gk 124 160 6)) = 0 ∧
      listMax (pixList (featherMask gk 124 160 6)) = 0) := by
  refine ⟨featherMask_pix, fun gk => ⟨?_, ?_⟩⟩
  · exact listMin_of_all_zero _ (pixList_all_const _ 0 (featherMask_pix gk 124 160 6))
  · exact listMax_of_all_zero _ (pixList_all_const _ 0 (featherMask_pix gk 124 160 6))

/-- C3: for scenario A (400×400 input, one detected face Rect
(100,100,100,120), sharpen 1.0, no model, scale 1.0) the output does have
size 400×400 and is pixel-identical to the input outside the expanded Rect —
but, contrary to the claim, it is pixel-identical *inside* as well: the
feather mask is identically zero, so the blend returns every destination
pixel unchanged.  Stated for every valid 8-bit pixel of every input. -/
theorem scenarioA_output_identical (ext : ExtOps) (p : ℤ → ℤ → Pix3) (x y : ℤ)
    (hv : validPix (p x y)) :
    (runPipeline ext ⟨"", 1, 1⟩ [⟨100, 100, 100, 120⟩] ⟨400, 400, p⟩).w = 400 ∧
    (runPipeline ext ⟨"", 1, 1⟩ [⟨100, 100, 100, 120⟩] ⟨400, 400, p⟩).h = 400 ∧
    (runPipeline ext ⟨"", 1, 1⟩ [⟨100, 100, 100, 120⟩] ⟨400, 400, p⟩).pix x y = p x y := by
  have h := runPipeline_pix_eq ext ⟨"", 1, 1⟩ [⟨100, 100, 100, 120⟩] ⟨400, 400, p⟩ x y hv
  exact ⟨h.2.1, h.2.2, h.1⟩

/-- C3 witness: scenario A evaluated on the constant (7,17,27) image — the
output keeps the 400×400 size and the probed pixel is unchanged. -/
theorem scenarioA_output_identical_witness :
    (runPipeline extC ⟨"", 1, 1⟩ [⟨100, 100, 100, 120⟩]
      ⟨400, 400, fun _ _ => (7, 17, 27)⟩).w = 400 ∧
    (runPipeline extC ⟨"", 1, 1⟩ [⟨100, 100, 100, 120⟩]
      ⟨400, 400, fun _ _ => (7, 17, 27)⟩).h = 400 ∧
    (runPipeline extC ⟨"", 1, 1⟩ [⟨100, 100, 100, 120⟩]
      ⟨400, 400, fun _ _ => (7, 17, 27)⟩).pix 150 150 = (7, 17, 27) :=
  scenarioA_output_identical extC (fun _ _ => (7, 17, 27)) 150 150 (by decide)

/-- C4: the compositing step writes only inside the target Rect — every
pixel strictly outside it is returned from the canvas unchanged, and the
canvas dimensions are preserved.  (The C++ caller passes a fresh clone of
the decoded image as the canvas, main.cpp:209-210; in this functional
embedding the source image value is immutable by construction.) -/
theorem pasteWithFeather_frame (ext : ExtOps) (face : Img Pix3) (roi : Rect)
    (canvas : Img Pix3) (x y : ℤ) (h : ¬ insideRect roi x y) :
    (pasteWithFeather ext face roi canvas).pix x y = canvas.pix x y ∧
    (pasteWithFeather ext face roi canvas).w = canvas.w ∧
    (pasteWithFeather ext face roi canvas).h = canvas.h :=
  ⟨pasteWithFeather_pix_outside ext face roi canvas x y h, rfl, rfl⟩

/-- C4 witness: a pixel outside a concrete ROI is untouched and the canvas
size is kept. -/
theorem pasteWithFeather_frame_witness :
    (pasteWithFeather extC ⟨2, 2, fun _ _ => (0, 0, 0)⟩ ⟨2, 2, 3, 3⟩
      ⟨8, 8, fun _ _ => (1, 2, 3)⟩).pix 0 0 = (1, 2, 3) ∧
    (pasteWithFeather extC ⟨2, 2, fun _ _ => (0, 0, 0)⟩ ⟨2, 2, 3, 3⟩
      ⟨8, 8, fun _ _ => (1, 2, 3)⟩).w = 8 := by
  have h := pasteWithFeather_frame extC ⟨2, 2, fun _ _ => (0, 0, 0)⟩ ⟨2, 2, 3, 3⟩
    ⟨8, 8, fun _ _ => (1, 2, 3)⟩ 0 0 (by decide)
  exact ⟨h.1, h.2.1⟩

/-- C5: when a model is supplied (`srModelPath` nonempty, scale at least
1.5) and its invocation fails, the failure is caught at this stage, the
"Super-resolution failed" diagnostic is recorded, and the result is exactly
the bicubic resize of the region at the requested scale factor — the stage
is total, so no failure propagates. -/
theorem srFailure_bicubic_fallback (ext : ExtOps) (a : Args) (face : Img Pix3) (e : String)
    (hpath : a.srModelPath ≠ "") (hscale : (3/2 : ℚ) ≤ a.srScale)
    (hfail : ext.srInvoke (stdRound a.srScale) face = .error e) :
    srStage ext a face
      = (resizeScale ext.sample face a.srScale,
        ["Super-resolution failed: " ++ e ++ ". Using bicubic."]) := by
  unfold srStage
  rw [if_pos ⟨hpath, hscale⟩, hfail]

/-- C5 witness: scenario C — scale 2.0 with a model that always throws; the
stage returns the bicubic-fallback image and the diagnostic. -/
theorem srFailure_bicubic_fallback_witness :
    srStage extC ⟨"model.pb", 2, 1⟩ ⟨2, 2, fun _ _ => (0, 0, 0)⟩
      = (resizeScale extC.sample ⟨2, 2, fun _ _ => (0, 0, 0)⟩ 2,
        ["Super-resolution failed: malformed model. Using bicubic."]) :=
  srFailure_bicubic_fallback extC ⟨"model.pb", 2, 1⟩ ⟨2, 2, fun _ _ => (0, 0, 0)⟩
    "malformed model" (by decide) (by norm_num) rfl

/-- C6: output dimensions of the resolution-enhancement stage.  With no
model and scale at most 1.01 the region passes through unchanged; on the
bicubic paths (no model above 1.01, or model failure) each output axis is
`cvRound(inputDim * requestedScale)` — OpenCV's `saturate_cast<int>`
rounding — and never smaller than the input; on a successful model
invocation (whose upsample contract multiplies each axis by the integer
scale `std::round(requestedScale)`) the output is that exact multiple and
again never smaller than the input. -/
theorem srStage_dims (ext : ExtOps) (a : Args) (face : Img Pix3)
    (hw : 0 ≤ face.w) (hh : 0 ≤ face.h) (hs : 1 ≤ a.srScale) :
    (a.srModelPath = "" → a.srScale ≤ 101/100 → (srStage ext a face).1 = face) ∧
    (a.srModelPath = "" → 101/100 < a.srScale →
      (srStage ext a face).1.w = cvRound ((face.w : ℚ) * a.srScale) ∧
      (srStage ext a face).1.h = cvRound ((face.h : ℚ) * a.srScale) ∧
      face.w ≤ (srStage ext a face).1.w ∧ face.h ≤ (srStage ext a face).1.h) ∧
    (∀ e, a.srModelPath ≠ "" → (3/2 : ℚ) ≤ a.srScale →
      ext.srInvoke (stdRound a.srScale) face = .error e →
      (srStage ext a face).1.w = cvRound ((face.w : ℚ) * a.srScale) ∧
      (srStage ext a face).1.h = cvRound ((face.h : ℚ) * a.srScale) ∧
      face.w ≤ (srStage ext a face).1.w ∧ face.h ≤ (srStage ext a face).1.h) ∧
    (∀ up, a.srModelPath ≠ "" → (3/2 : ℚ) ≤ a.srScale →
      ext.srInvoke (stdRound a.srScale) face = .ok up →
      up.w = face.w * stdRound a.srScale → up.h = face.h * stdRound a.srScale →
      (srStage ext a face).1.w = face.w * stdRound a.srScale ∧
      (srStage ext a face).1.h = face.h * stdRound a.srScale ∧
      face.w ≤ (srStage ext a face).1.w ∧ face.h ≤ (srStage ext a face).1.h) := by
  refine ⟨?_, ?_, ?_, ?_⟩
  · intro hp hle
    unfold srStage
    rw [if_neg (fun hc => hc.1 hp), if_neg (not_lt.mpr hle)]
  · intro hp hgt
    unfold srStage
    rw [if_neg (fun hc => hc.1 hp), if_pos hgt]
    exact ⟨rfl, rfl, le_cvRound_mul _ _ hw hs, le_cvRound_mul _ _ hh hs⟩
  · intro e hp h32 herr
    unfold srStage
    rw [if_pos ⟨hp, h32⟩, herr]
    exact ⟨rfl, rfl, le_cvRound_mul _ _ hw hs, le_cvRound_mul _ _ hh hs⟩
  · intro up hp h32 hok hupw huph
    unfold srStage
    rw [if_pos ⟨hp, h32⟩, hok]
    refine ⟨hupw, huph, ?_, ?_⟩
    · rw [hupw]
      exact le_mul_of_one_le_right hw (one_le_stdRound _ h32)
    · rw [huph]
      exact le_mul_of_one_le_right hh (one_le_stdRound _ h32)

/-- C6 witness: a 3×5 region at requested scale 2.0 with no model comes out
6×10. -/
theorem srStage_dims_witness :
    (srStage extC ⟨"", 2, 1⟩ ⟨3, 5, fun _ _ => (0, 0, 0)⟩).1.w = 6 ∧
    (srStage extC ⟨"", 2, 1⟩ ⟨3, 5, fun _ _ => (0, 0, 0)⟩).1.h = 10 := by
  have h := (srStage_dims extC ⟨"", 2, 1⟩ ⟨3, 5, fun _ _ => (0, 0, 0)⟩
    (by decide) (by decide) (by norm_num)).2.1 rfl (by norm_num)
  have h6 : ((3 : ℤ) : ℚ) * (2 : ℚ) = ((6 : ℤ) : ℚ) := by norm_num
  have h10 : ((5 : ℤ) : ℚ) * (2 : ℚ) = ((10 : ℤ) : ℚ) := by norm_num
  refine ⟨?_, ?_⟩
  · rw [h.1]
    show cvRound (((3 : ℤ) : ℚ) * (2 : ℚ)) = 6
    rw [h6, cvRound_intCast]
  · rw [h.2.1]
    show cvRound (((5 : ℤ) : ℚ) * (2 : ℚ)) = 10
    rw [h10, cvRound_intCast]

/-- C7: for every non-degenerate detected Rect inside the image bounds, the
expanded ROI satisfies the Rect invariants (nonnegative origin, extents
positive, contained in the image) and fully contains the detected Rect. -/
theorem expandRect_invariants (f : Rect) (W H : ℤ)
    (hx : 0 ≤ f.x) (hy : 0 ≤ f.y) (hw : 0 < f.w) (hh : 0 < f.h)
    (hxw : f.x + f.w ≤ W) (hyh : f.y + f.h ≤ H) :
    0 ≤ (expandRect f W H).x ∧ 0 ≤ (expandRect f W H).y ∧
    (expandRect f W H).x + (expandRect f W H).w ≤ W ∧
    (expandRect f W H).y + (expandRect f W H).h ≤ H ∧
    0 < (expandRect f W H).w ∧ 0 < (expandRect f W H).h ∧
    (expandRect f W H).x ≤ f.x ∧ (expandRect f W H).y ≤ f.y ∧
    f.x + f.w ≤ (expandRect f W H).x + (expandRect f W H).w ∧
    f.y + f.h ≤ (expandRect f W H).y + (expandRect f W H).h := by
  unfold expandRect
  dsimp only
  omega

/-- C7 witness: the scenario-A detection (100,100,100,120) in a 400×400
image expands to a Rect that keeps all invariants and contains it. -/
theorem expandRect_invariants_witness :
    0 ≤ (expandRect ⟨100, 100, 100, 120⟩ 400 400).x ∧
    0 ≤ (expandRect ⟨100, 100, 100, 120⟩ 400 400).y ∧
    (expandRect ⟨100, 100, 100, 120⟩ 400 400).x
      + (expandRect ⟨100, 100, 100, 120⟩ 400 400).w ≤ 400 ∧
    (expandRect ⟨100, 100, 100, 120⟩ 400 400).y
      + (expandRect ⟨100, 100, 100, 120⟩ 400 400).h ≤ 400 ∧
    0 < (expandRect ⟨100, 100, 100, 120⟩ 400 400).w ∧
    0 < (expandRect ⟨100, 100, 100, 120⟩ 400 400).h ∧
    (expandRect ⟨100, 100, 100, 120⟩ 400 400).x ≤ 100 ∧
    (expandRect ⟨100, 100, 100, 120⟩ 400 400).y ≤ 100 ∧
    (100 : ℤ) + 100 ≤ (expandRect ⟨100, 100, 100, 120⟩ 400 400).x
      + (expandRect ⟨100, 100, 100, 120⟩ 400 400).w ∧
    (100 : ℤ) + 120 ≤ (expandRect ⟨100, 100, 100, 120⟩ 400 400).y
      + (expandRect ⟨100, 100, 100, 120⟩ 400 400).h :=
  expandRect_invariants ⟨100, 100, 100, 120⟩ 400 400 (by decide) (by decide)
    (by decide) (by decide) (by decide) (by decide)

/-- C8: the expansion policy is exactly: pad the origin by `width/8`
horizontally and `height/6` vertically (integer division), floor it at 0,
and min-cap each extent against the space remaining between the shifted
origin and the image border. -/
theorem expandRect_policy (f : Rect) (W H : ℤ) :
    (expandRect f W H).x = max 0 (f.x - f.w / 8) ∧
    (expandRect f W H).y = max 0 (f.y - f.h / 6) ∧
    (expandRect f W H).w = min (f.w + 2 * (f.w / 8)) (W - max 0 (f.x - f.w / 8)) ∧
    (expandRect f W H).h = min (f.h + 2 * (f.h / 6)) (H - max 0 (f.y - f.h / 6)) :=
  ⟨rfl, rfl, rfl, rfl⟩

/-- C9: the unsharp-mask stage passes non-positive amounts through
unchanged; for positive amounts every pixel is
`saturate(src*(1+amount) - blurred*amount)` with the blur taken at the
amount-selected kernel size, and the kernel thresholds are 3 below 0.75,
5 below 1.5, 7 below 2.5 and 9 from 2.5 on. -/
theorem unsharpMask_spec (blur : ℕ → Img Pix3 → Img Pix3) (src : Img Pix3)
    (amount : ℚ) (x y : ℤ) :
    (amount ≤ 0 → unsharpMask blur src amount = src) ∧
    (0 < amount →
      (unsharpMask blur src amount).pix x y
        = awPix (src.pix x y) ((blur (ksizeFor amount) src).pix x y) amount ∧
      (unsharpMask blur src amount).w = src.w ∧
      (unsharpMask blur src amount).h = src.h) ∧
    (amount < 3/4 → ksizeFor amount = 3) ∧
    (3/4 ≤ amount → amount < 3/2 → ksizeFor amount = 5) ∧
    (3/2 ≤ amount → amount < 5/2 → ksizeFor amount = 7) ∧
    (5/2 ≤ amount → ksizeFor amount = 9) := by
  refine ⟨?_, ?_, ?_, ?_, ?_, ?_⟩
  · intro h
    unfold unsharpMask
    rw [if_pos h]
  · intro h
    unfold unsharpMask
    rw [if_neg (not_le.mpr h)]
    exact ⟨rfl, rfl, rfl⟩
  · intro h
    unfold ksizeFor
    rw [if_pos h]
  · intro h1 h2
    unfold ksizeFor
    rw [if_neg (not_lt.mpr h1), if_pos h2]
  · intro h1 h2
    unfold ksizeFor
    rw [if_neg (not_lt.mpr (le_trans (by norm_num) h1)), if_neg (not_lt.mpr h1), if_pos h2]
  · intro h
    unfold ksizeFor
    rw [if_neg (not_lt.mpr (le_trans (by norm_num) h)),
      if_neg (not_lt.mpr (le_trans (by norm_num) h)), if_neg (not_lt.mpr h)]

/-- C10: on a nonempty candidate list the selection returns a member of
maximal area, and it is the first of maximal area: the list splits around
the returned Rect with everything before it of strictly smaller area; the
empty list yields the zero-area sentinel. -/
theorem pickLargest_spec (l : List Rect) (h : l ≠ []) :
    pickLargest [] = ⟨0, 0, 0, 0⟩ ∧
    pickLargest l ∈ l ∧
    (∀ r ∈ l, r.area ≤ (pickLargest l).area) ∧
    ∃ l₁ l₂, l = l₁ ++ pickLargest l :: l₂ ∧
      ∀ r ∈ l₁, r.area < (pickLargest l).area := by
  obtain ⟨r, rs, rfl⟩ := List.exists_cons_of_ne_nil h
  refine ⟨rfl, ?_, ?_, ?_⟩
  · obtain ⟨A, B, hAB, -⟩ := foldl_step_first rs r
    show rs.foldl step r ∈ r :: rs
    rw [hAB]
    exact List.mem_append.mpr (Or.inr (List.mem_cons_self _ _))
  · intro c hc
    rcases List.mem_cons.mp hc with h1 | h1
    · subst h1
      exact foldl_step_seed_le rs c
    · exact foldl_step_mem_le rs r c h1
  · exact foldl_step_first rs r

/-- C10 witness: with areas 6, 6, 1 the first maximal-area candidate is
returned, it is a member, and the tied later candidate does not beat it. -/
theorem pickLargest_spec_witness :
    pickLargest [] = ⟨0, 0, 0, 0⟩ ∧
    pickLargest [⟨0, 0, 2, 3⟩, ⟨1, 1, 3, 2⟩, ⟨9, 9, 1, 1⟩]
      ∈ [(⟨0, 0, 2, 3⟩ : Rect), ⟨1, 1, 3, 2⟩, ⟨9, 9, 1, 1⟩] ∧
    Rect.area ⟨1, 1, 3, 2⟩
      ≤ (pickLargest [⟨0, 0, 2, 3⟩, ⟨1, 1, 3, 2⟩, ⟨9, 9, 1, 1⟩]).area := by
  have h := pickLargest_spec [⟨0, 0, 2, 3⟩, ⟨1, 1, 3, 2⟩, ⟨9, 9, 1, 1⟩] (by decide)
  exact ⟨h.1, h.2.1, h.2.2.1 ⟨1, 1, 3, 2⟩ (by decide)⟩
